import Mathlib

/-!
Shallow embedding of the LHTLP crate (src/src/lib.rs): linearly homomorphic
time-lock puzzles over a modulus that is a product of two safe primes.

Arbitrary-precision integers (rust num_bigint BigUint) are modelled as Nat.
The two sources of randomness (the safe primes returned by
Generator::safe_prime and the uniform draws from rand::thread_rng) are made
explicit arguments of setup and generate, so that every operation is a pure
function of its inputs; the properties the random draws are guaranteed to
satisfy on exit of the sampling loops (coprimality of the drawn unit, the
safe-prime property and the bit length of p and q) become hypotheses of the
theorems.  BigUint panics (Option::unwrap on a failed modular inversion, and
underflow of the unchecked subtraction in solve) are modelled by an explicit
error type.
-/

/-- Modular inverse as provided by num_bigint (BigUint::modinv): returns the
unique inverse of a modulo m taken in [0, m) when gcd(a, m) = 1, and none
otherwise.  The library computes it by the extended Euclidean algorithm; the
inverse being unique in [0, m), we embed it as the first (hence the only)
witness below m, which keeps the definition kernel-executable. -/
def modinv (a m : Nat) : Option Nat :=
  if Nat.gcd a m = 1 then (List.range m).find? (fun z => a * z % m = 1 % m) else none

/-- Parameter set of one LHTLP instance, mirroring pub struct LHTLP of
src/src/lib.rs: difficulty (the time-hardness value), the modulus n = p * q,
the generator g and the forcing element h. -/
structure LHTLP where
  difficulty : Nat
  n : Nat
  g : Nat
  h : Nat
deriving DecidableEq

deriving instance DecidableEq for Except

/-- Failure modes of LHTLP::solve: the Option::unwrap panic when the modular
inverse does not exist, and the BigUint subtraction panic when the decoded
value is 0 and the unchecked "- 1" underflows. -/
inductive SolveError where
  | noInverse
  | underflow
deriving DecidableEq

/-- LHTLP::setup (src/src/lib.rs lines 49-80) with the randomness explicit:
p and q are the two safe primes returned by Generator::safe_prime(lambda),
and r is the value with which the rejection-sampling loop exits (the loop
guarantees 1 <= r < n and gcd(r, n) = 1; these facts are hypotheses of the
theorems below).  The code squares r, inverts the square modulo n = p * q
(unwrap modelled as Option), computes the halved totient
tot2 = (p - 1) * (q - 1) / 2, the exponent 2 ^ difficulty mod tot2, and the
forcing element h = g ^ exponent mod n. -/
def LHTLP.setup (p q difficulty r : Nat) : Option LHTLP :=
  let n := p * q
  match modinv (r ^ 2) n with
  | none => none
  | some g =>
    let tot2 := (p - 1) * (q - 1) / 2
    let pw := 2 ^ difficulty % tot2
    some ⟨difficulty, n, g, g ^ pw % n⟩

/-- LHTLP::generate (src/src/lib.rs lines 84-92) with the random draw r
(sampled in [1, n^2) by the code) explicit.  The secret is a u64 in the
code, so every value reaching this function satisfies secret < 2 ^ 64;
u = g ^ r mod n and v = (h ^ (r * n) mod n^2) * ((1 + n) ^ secret mod n^2)
mod n^2. -/
def LHTLP.generate (T : LHTLP) (r secret : Nat) : Nat × Nat :=
  let n2 := T.n ^ 2
  let u := T.g ^ r % T.n
  let v := (T.h ^ (r * T.n) % n2) * ((1 + T.n) ^ secret % n2) % n2
  (u, v)

/-- LHTLP::solve (src/src/lib.rs lines 96-101): w = u ^ (2 ^ difficulty)
mod n, then s = ((v * (w ^ n mod n^2)^(-1) mod n^2) - 1) / n.  The unwrap on
the inversion is the noInverse error; the unchecked BigUint subtraction
panics when the reduced product is 0, which is the underflow error. -/
def LHTLP.solve (T : LHTLP) (puzzle : Nat × Nat) : Except SolveError Nat :=
  let n2 := T.n ^ 2
  let w := puzzle.1 ^ 2 ^ T.difficulty % T.n
  match modinv (w ^ T.n % n2) n2 with
  | none => Except.error SolveError.noInverse
  | some z =>
    let dec := puzzle.2 * z % n2
    if dec < 1 then Except.error SolveError.underflow
    else Except.ok ((dec - 1) / T.n)

/-- LHTLP::evaluate (src/src/lib.rs lines 106-109): fold over the puzzle
vector starting from (1, 1), multiplying componentwise.  The code performs
plain BigUint multiplications with no modular reduction. -/
def LHTLP.evaluate (T : LHTLP) (puzzles : List (Nat × Nat)) : Nat × Nat :=
  puzzles.foldl (fun acc x => (acc.1 * x.1, acc.2 * x.2)) (1, 1)

/-- Safe prime as in the spec glossary: p is prime and so is (p - 1) / 2.
This is the property Generator::safe_prime guarantees of its result. -/
def SafePrime (p : Nat) : Prop := Nat.Prime p ∧ Nat.Prime ((p - 1) / 2)

instance (p : Nat) : Decidable (SafePrime p) :=
  inferInstanceAs (Decidable (Nat.Prime p ∧ Nat.Prime ((p - 1) / 2)))

/-- Modelled from the spec: the safe-prime generator (module num_primes,
declared in src/src/lib.rs but whose source is not under src/) is described
as a black box "returning a prime of a requested bit length such that
(p-1)/2 is also prime", so a result of Generator::safe_prime(bits) is a safe
prime whose binary representation has exactly the requested number of bits. -/
def SafePrimeOfBits (bits p : Nat) : Prop :=
  SafePrime p ∧ 2 ^ (bits - 1) ≤ p ∧ p < 2 ^ bits

/-!
Fast modular exponentiation with a structural fuel, used only to certify the
primality of the concrete 33-bit safe primes appearing in witnesses (trial
division is out of reach of kernel reduction at that size, Lucas certificates
are not).
-/

/-- Binary modular exponentiation, structural on the fuel so that the kernel
can evaluate it in O(log e) big-integer steps. -/
def powModAux : Nat → Nat → Nat → Nat → Nat → Nat
  | 0, _, _, m, acc => acc % m
  | f+1, b, e, m, acc =>
    if e = 0 then acc % m
    else powModAux f (b * b % m) (e / 2) m (if e % 2 = 1 then acc * b % m else acc)

/-- Modular exponentiation b ^ e mod m for exponents below 2 ^ 40. -/
def powMod (b e m : Nat) : Nat := powModAux 40 (b % m) e m 1

theorem powModAux_eq (f : Nat) (b e acc m : Nat) (hm : 0 < m) (he : e < 2 ^ f) :
    powModAux f b e m acc = acc * b ^ e % m := by
  induction f generalizing b e acc with
  | zero =>
    have he0 : e = 0 := by simpa using he
    subst he0
    simp [powModAux]
  | succ f ih =>
    by_cases h0 : e = 0
    · subst h0; simp [powModAux]
    · have hpow2 : 2 ^ (f + 1) = 2 * 2 ^ f := by rw [pow_succ, Nat.mul_comm]
      have he2 : e / 2 < 2 ^ f := by omega
      have hsplit : 2 * (e / 2) + e % 2 = e := Nat.div_add_mod e 2
      simp only [powModAux, if_neg h0]
      rw [ih _ _ _ he2]
      have hbb : (b * b % m) ^ (e / 2) ≡ b ^ (2 * (e / 2)) [MOD m] := by
        have h1 : (b * b % m) ^ (e / 2) ≡ (b * b) ^ (e / 2) [MOD m] :=
          (Nat.mod_modEq (b * b) m).pow _
        exact h1.trans (by rw [← pow_two, ← pow_mul])
      rcases Nat.mod_two_eq_zero_or_one e with h2 | h2
      · rw [if_neg (by omega)]
        have : acc * (b * b % m) ^ (e / 2) ≡ acc * b ^ e [MOD m] := by
          have := hbb.mul_left acc
          rwa [show 2 * (e / 2) = e by omega] at this
        exact this
      · rw [if_pos h2]
        show (acc * b % m) * (b * b % m) ^ (e / 2) ≡ acc * b ^ e [MOD m]
        have h1 : (acc * b % m) * (b * b % m) ^ (e / 2) ≡
            (acc * b) * b ^ (2 * (e / 2)) [MOD m] :=
          (Nat.mod_modEq (acc * b) m).mul hbb
        refine h1.trans ?_
        have : acc * b * b ^ (2 * (e / 2)) = acc * b ^ (2 * (e / 2) + 1) := by ring
        rw [this, show 2 * (e / 2) + 1 = e by omega]

theorem powMod_eq (b e m : Nat) (hm : 0 < m) (he : e < 2 ^ 40) :
    powMod b e m = b ^ e % m := by
  unfold powMod
  rw [powModAux_eq 40 _ _ _ _ hm he, one_mul]
  exact (Nat.mod_modEq b m).pow e

theorem mem_of_prime_dvd_prod (s : Nat) (hs : Nat.Prime s) (l : List Nat)
    (hl : ∀ x ∈ l, Nat.Prime x) (hdvd : s ∣ l.prod) : s ∈ l := by
  induction l with
  | nil =>
    rw [List.prod_nil] at hdvd
    exact absurd (Nat.dvd_one.mp hdvd) hs.ne_one
  | cons x xs ih =>
    rw [List.prod_cons] at hdvd
    rcases (Nat.Prime.dvd_mul hs).mp hdvd with h | h
    · have hx : s = x := (Nat.prime_dvd_prime_iff_eq hs (hl x (List.mem_cons_self x xs))).mp h
      exact hx ▸ List.mem_cons_self x xs
    · exact List.mem_cons_of_mem _ (ih (fun y hy => hl y (List.mem_cons_of_mem _ hy)) h)

/-- Lucas primality certificate checked with powMod: a is an element of
order p - 1 modulo p, the list qs holding the prime factorisation of p - 1. -/
theorem lucas_cert (p a : Nat) (qs : List Nat) (hp : 2 ≤ p) (hbnd : p - 1 < 2 ^ 40)
    (hqs : ∀ q ∈ qs, Nat.Prime q) (hprod : qs.prod = p - 1)
    (h1 : powMod a (p - 1) p = 1)
    (h2 : ∀ q ∈ qs, powMod a ((p - 1) / q) p ≠ 1) : Nat.Prime p := by
  have hp0 : 0 < p := by omega
  have hcast : ∀ k : Nat, k < 2 ^ 40 →
      ((a : ZMod p)) ^ k = ((powMod a k p : Nat) : ZMod p) := by
    intro k hk
    rw [powMod_eq a k p hp0 hk, ZMod.natCast_mod, Nat.cast_pow]
  apply lucas_primality p (a : ZMod p)
  · rw [hcast (p - 1) hbnd, h1, Nat.cast_one]
  · intro q hq hqdvd
    have hmem : q ∈ qs := mem_of_prime_dvd_prod q hq qs hqs (by rw [hprod]; exact hqdvd)
    rw [hcast ((p - 1) / q) (lt_of_le_of_lt (Nat.div_le_self _ _) hbnd)]
    intro hc
    apply h2 q hmem
    have hlt : powMod a ((p - 1) / q) p < p := by
      rw [powMod_eq a _ p hp0 (lt_of_le_of_lt (Nat.div_le_self _ _) hbnd)]
      exact Nat.mod_lt _ hp0
    have hcast1 : ((powMod a ((p - 1) / q) p : Nat) : ZMod p) = ((1 : Nat) : ZMod p) := by
      rw [hc, Nat.cast_one]
    have hmodeq : powMod a ((p - 1) / q) p % p = 1 % p :=
      (ZMod.natCast_eq_natCast_iff _ _ _).mp hcast1
    rwa [Nat.mod_eq_of_lt hlt, Nat.mod_eq_of_lt (by omega)] at hmodeq

/-- Primality of 2147495123 = (4294990247 - 1) / 2, certified by the Lucas
test with generator 2 and the factorisation 2147495122 = 2 * 67 * 151 * 211 * 503. -/
theorem prime_2147495123 : Nat.Prime 2147495123 := by
  refine lucas_cert 2147495123 2 [2, 67, 151, 211, 503] (by norm_num) (by norm_num)
    ?_ (by norm_num) (by decide) ?_
  · intro q hq
    fin_cases hq <;> norm_num
  · intro q hq
    fin_cases hq <;> decide

/-- Primality of the 33-bit safe prime 4294990247, certified by the Lucas
test with generator 5 and the factorisation 4294990246 = 2 * 2147495123. -/
theorem prime_4294990247 : Nat.Prime 4294990247 := by
  refine lucas_cert 4294990247 5 [2, 2147495123] (by norm_num) (by norm_num)
    ?_ (by norm_num) (by decide) ?_
  · intro q hq
    fin_cases hq
    · norm_num
    · exact prime_2147495123
  · intro q hq
    fin_cases hq <;> decide

theorem safePrime_4294990247 : SafePrime 4294990247 :=
  show Nat.Prime 4294990247 ∧ Nat.Prime ((4294990247 - 1) / 2) from
    ⟨prime_4294990247, by
      rw [(by decide : (4294990247 - 1) / 2 = 2147495123)]
      exact prime_2147495123⟩

/-!
Specification of modinv and elementary consequences of the safe-prime
hypotheses.
-/

theorem modinv_eq_none_iff (a m : Nat) (h : Nat.gcd a m ≠ 1) : modinv a m = none := by
  simp [modinv, h]

theorem modinv_isSome (a m : Nat) (hm : 1 < m) (h : Nat.gcd a m = 1) :
    ∃ z, modinv a m = some z := by
  have hm0 : (0 : Int) < (m : Int) := by exact_mod_cast Nat.lt_of_lt_of_le Nat.zero_lt_one hm.le
  set x : Int := Nat.gcdA a m with hx
  set z0 : Nat := (x % (m : Int)).toNat with hz0
  have hz0nn : 0 ≤ x % (m : Int) := Int.emod_nonneg x (by omega)
  have hz0lt : z0 < m := by
    have := Int.emod_lt_of_pos x hm0
    omega
  have hbez : (1 : Int) = a * x + m * Nat.gcdB a m := by
    have := Nat.gcd_eq_gcd_ab a m
    rw [h] at this
    exact_mod_cast this
  have hinv : a * z0 % m = 1 % m := by
    have hdvd : (m : Int) ∣ (1 : Int) - (a : Int) * z0 := by
      have hz0cast : (z0 : Int) = x % (m : Int) := Int.toNat_of_nonneg hz0nn
      have hxmod : x % (m : Int) = x - m * (x / m) := Int.emod_def x m
      refine ⟨Nat.gcdB a m + a * (x / m), ?_⟩
      rw [hz0cast, hxmod]
      rw [hbez]
      ring
    have : a * z0 ≡ 1 [MOD m] := (Nat.modEq_iff_dvd).mpr (by exact_mod_cast hdvd)
    exact this
  refine ⟨(List.range m).find? (fun z => a * z % m = 1 % m) |>.get ?_, ?_⟩
  · rw [List.find?_isSome]
    exact ⟨z0, List.mem_range.mpr hz0lt, by simpa using hinv⟩
  · simp [modinv, h]

theorem modinv_spec (a m z : Nat) (h : modinv a m = some z) :
    Nat.gcd a m = 1 ∧ z < m ∧ a * z % m = 1 % m := by
  by_cases hg : Nat.gcd a m = 1
  · simp only [modinv, if_pos hg] at h
    refine ⟨hg, ?_, ?_⟩
    · exact List.mem_range.mp (List.mem_of_find?_eq_some h)
    · simpa using List.find?_some h
  · simp [modinv, hg] at h

/-!
Number-theoretic core: the congruences behind the Paillier-style encoding
and the order of the generator produced by setup.
-/

theorem coprime_of_mul_modEq_one (a z m : Nat) (h : a * z % m = 1 % m) :
    Nat.gcd z m = 1 := by
  have hdvd : (m : Int) ∣ (1 : Int) - (a * z : Nat) := by
    have : (a * z : Nat) ≡ 1 [MOD m] := h
    have := (Nat.modEq_iff_dvd).mp this
    exact_mod_cast this
  have hd1 : ((Nat.gcd z m : Nat) : Int) ∣ 1 := by
    have hz : ((Nat.gcd z m : Nat) : Int) ∣ (a * z : Nat) := by
      exact_mod_cast Dvd.dvd.mul_left (Nat.gcd_dvd_left z m) a
    have hm : ((Nat.gcd z m : Nat) : Int) ∣ (m : Int) := by
      exact_mod_cast Nat.gcd_dvd_right z m
    have := dvd_sub (hm.trans hdvd) (dvd_neg.mpr hz)
    simpa using this
  have : Nat.gcd z m ∣ 1 := by exact_mod_cast hd1
  exact Nat.dvd_one.mp this

theorem pow_mod_exponent (g m e n : Nat) (h : g ^ m ≡ 1 [MOD n]) :
    g ^ (e % m) ≡ g ^ e [MOD n] := by
  conv_rhs => rw [← Nat.div_add_mod e m, pow_add, pow_mul]
  have h1 : (g ^ m) ^ (e / m) ≡ 1 [MOD n] := by
    have := h.pow (e / m)
    rwa [one_pow] at this
  calc g ^ (e % m) = 1 * g ^ (e % m) := (one_mul _).symm
    _ ≡ (g ^ m) ^ (e / m) * g ^ (e % m) [MOD n] := h1.symm.mul_right _

theorem pow_lift_sq (n a b : Nat) (h : a ≡ b [MOD n]) : a ^ n ≡ b ^ n [MOD n ^ 2] := by
  have hdvd : ((n : Int)) ∣ (b : Int) - (a : Int) := (Nat.modEq_iff_dvd).mp h
  have h2 := dvd_sub_pow_of_dvd_sub hdvd 1
  rw [pow_one] at h2
  refine (Nat.modEq_iff_dvd).mpr ?_
  push_cast
  exact_mod_cast h2

theorem paillier_pow (n s : Nat) : (1 + n) ^ s ≡ 1 + s * n [MOD n ^ 2] := by
  induction s with
  | zero =>
    show (1 + n) ^ 0 ≡ 1 + 0 * n [MOD n ^ 2]
    rw [pow_zero, Nat.zero_mul, Nat.add_zero]
  | succ s ih =>
    have step : (1 + s * n) * (1 + n) ≡ 1 + (s + 1) * n [MOD n ^ 2] := by
      have hexp : (1 + s * n) * (1 + n) = (1 + (s + 1) * n) + s * n ^ 2 := by ring
      rw [hexp]
      calc (1 + (s + 1) * n) + s * n ^ 2
          ≡ (1 + (s + 1) * n) + 0 [MOD n ^ 2] :=
            Nat.ModEq.add_left _ ((Nat.modEq_zero_iff_dvd).mpr ⟨s, by ring⟩)
        _ = 1 + (s + 1) * n := by ring
    calc (1 + n) ^ (s + 1) = (1 + n) ^ s * (1 + n) := by rw [pow_succ]
      _ ≡ (1 + s * n) * (1 + n) [MOD n ^ 2] := ih.mul_right _
      _ ≡ 1 + (s + 1) * n [MOD n ^ 2] := step

theorem SafePrime.prime (p : Nat) (h : SafePrime p) : Nat.Prime p := h.1

theorem SafePrime.five_le (p : Nat) (h : SafePrime p) : 5 ≤ p := by
  rcases h with ⟨hp, hp2⟩
  by_contra hlt
  push_neg at hlt
  interval_cases p <;> revert hp hp2 <;> decide

theorem gcd_mod_left (x n : Nat) : Nat.gcd (x % n) n = Nat.gcd x n := by
  rw [← Nat.gcd_rec n x, Nat.gcd_comm]

/-!
Facts about the parameter set produced by setup.
-/

theorem setup_inv (p q T r : Nat) (P : LHTLP) (hP : LHTLP.setup p q T r = some P) :
    ∃ g, modinv (r ^ 2) (p * q) = some g ∧
      P = ⟨T, p * q, g, g ^ (2 ^ T % ((p - 1) * (q - 1) / 2)) % (p * q)⟩ := by
  simp only [LHTLP.setup] at hP
  cases hmi : modinv (r ^ 2) (p * q) with
  | none =>
    rw [hmi] at hP
    cases hP
  | some g =>
    rw [hmi] at hP
    refine ⟨g, rfl, ?_⟩
    cases hP
    rfl

theorem setup_n (p q T r : Nat) (P : LHTLP) (hP : LHTLP.setup p q T r = some P) :
    P.n = p * q := by
  obtain ⟨g, _, hPeq⟩ := setup_inv p q T r P hP
  rw [hPeq]

theorem setup_difficulty (p q T r : Nat) (P : LHTLP)
    (hP : LHTLP.setup p q T r = some P) : P.difficulty = T := by
  obtain ⟨g, _, hPeq⟩ := setup_inv p q T r P hP
  rw [hPeq]

theorem setup_g_inv (p q T r : Nat) (P : LHTLP) (hP : LHTLP.setup p q T r = some P) :
    r ^ 2 * P.g % (p * q) = 1 % (p * q) := by
  obtain ⟨g, hg, hPeq⟩ := setup_inv p q T r P hP
  have := (modinv_spec _ _ _ hg).2.2
  rw [hPeq]
  exact this

theorem setup_g_coprime (p q T r : Nat) (P : LHTLP)
    (hP : LHTLP.setup p q T r = some P) : Nat.gcd P.g (p * q) = 1 :=
  coprime_of_mul_modEq_one (r ^ 2) P.g (p * q) (setup_g_inv p q T r P hP)

theorem setup_g_order (p q T r : Nat) (hp : SafePrime p) (hq : SafePrime q)
    (hpq : p ≠ q) (hr : Nat.gcd r (p * q) = 1)
    (P : LHTLP) (hP : LHTLP.setup p q T r = some P) :
    P.g ^ ((p - 1) * (q - 1) / 2) ≡ 1 [MOD p * q] := by
  have hp5 := SafePrime.five_le p hp
  have hq5 := SafePrime.five_le q hq
  have hpodd : Odd p := (SafePrime.prime p hp).odd_of_ne_two (by omega)
  have h2dvd : 2 ∣ (p - 1) * (q - 1) := by
    rcases hpodd with ⟨k, hk⟩
    exact Dvd.dvd.mul_right ⟨k, by omega⟩ _
  have h2tot : 2 * ((p - 1) * (q - 1) / 2) = (p - 1) * (q - 1) :=
    Nat.mul_div_cancel' h2dvd
  have htot : Nat.totient (p * q) = (p - 1) * (q - 1) := by
    rw [Nat.totient_mul ((Nat.coprime_primes (SafePrime.prime p hp)
      (SafePrime.prime q hq)).mpr hpq),
      Nat.totient_prime (SafePrime.prime p hp),
      Nat.totient_prime (SafePrime.prime q hq)]
  have hEuler : r ^ ((p - 1) * (q - 1)) ≡ 1 [MOD p * q] := by
    have := Nat.ModEq.pow_totient hr
    rwa [htot] at this
  have hginv : r ^ 2 * P.g ≡ 1 [MOD p * q] := setup_g_inv p q T r P hP
  set t2 := (p - 1) * (q - 1) / 2 with ht2
  calc P.g ^ t2 = 1 * P.g ^ t2 := (one_mul _).symm
    _ ≡ r ^ (2 * t2) * P.g ^ t2 [MOD p * q] := by
        refine Nat.ModEq.mul_right _ ?_
        rw [h2tot]
        exact hEuler.symm
    _ = (r ^ 2 * P.g) ^ t2 := by rw [mul_pow, pow_mul]
    _ ≡ 1 ^ t2 [MOD p * q] := hginv.pow _
    _ = 1 := one_pow _

theorem setup_h_modEq (p q T r : Nat) (hp : SafePrime p) (hq : SafePrime q)
    (hpq : p ≠ q) (hr : Nat.gcd r (p * q) = 1)
    (P : LHTLP) (hP : LHTLP.setup p q T r = some P) :
    P.h ≡ P.g ^ 2 ^ T [MOD p * q] := by
  obtain ⟨g, hg, hPeq⟩ := setup_inv p q T r P hP
  have horder := setup_g_order p q T r hp hq hpq hr P hP
  have hh : P.h = P.g ^ (2 ^ T % ((p - 1) * (q - 1) / 2)) % (p * q) := by
    rw [hPeq]
  rw [hh]
  exact (Nat.mod_modEq _ _).trans (pow_mod_exponent P.g _ _ _ horder)

theorem setup_h_coprime (p q T r : Nat) (P : LHTLP)
    (hP : LHTLP.setup p q T r = some P) : Nat.gcd P.h (p * q) = 1 := by
  obtain ⟨g, hg, hPeq⟩ := setup_inv p q T r P hP
  have hgc : Nat.gcd P.g (p * q) = 1 := setup_g_coprime p q T r P hP
  have hh : P.h = P.g ^ (2 ^ T % ((p - 1) * (q - 1) / 2)) % (p * q) := by
    rw [hPeq]
  rw [hh, gcd_mod_left]
  exact Nat.Coprime.pow_left _ hgc

/-- Definitional unfolding of solve on an explicit pair. -/
theorem solve_eq (T : LHTLP) (u v : Nat) :
    LHTLP.solve T (u, v) =
      match modinv ((u ^ 2 ^ T.difficulty % T.n) ^ T.n % T.n ^ 2) (T.n ^ 2) with
      | none => Except.error SolveError.noInverse
      | some z =>
        if v * z % T.n ^ 2 < 1 then Except.error SolveError.underflow
        else Except.ok ((v * z % T.n ^ 2 - 1) / T.n) := rfl

/-- Core opening lemma: on a parameter set produced by setup from distinct
safe primes, solve recovers S < n from any pair (U, V) whose components
satisfy the congruences U = g ^ R and V = h ^ (R * n) * (1 + n) ^ S modulo
n and n ^ 2 respectively; generate and all products of generated puzzles
produce such pairs. -/
theorem solve_core (p q T r : Nat) (hp : SafePrime p) (hq : SafePrime q)
    (hpq : p ≠ q) (hr : Nat.gcd r (p * q) = 1)
    (P : LHTLP) (hP : LHTLP.setup p q T r = some P)
    (U V R S : Nat) (hS : S < p * q)
    (hU : U ≡ P.g ^ R [MOD p * q])
    (hV : V ≡ P.h ^ (R * (p * q)) * (1 + p * q) ^ S [MOD (p * q) ^ 2]) :
    LHTLP.solve P (U, V) = Except.ok S := by
  have hp5 := SafePrime.five_le p hp
  have hq5 := SafePrime.five_le q hq
  have h25 : 25 ≤ p * q := Nat.mul_le_mul hp5 hq5
  have hn1 : 1 < p * q := by omega
  have hn0 : 0 < p * q := by omega
  have hn2 : 1 < (p * q) ^ 2 := by nlinarith
  have hn := setup_n p q T r P hP
  have hd := setup_difficulty p q T r P hP
  have hgc := setup_g_coprime p q T r P hP
  have hhm := setup_h_modEq p q T r hp hq hpq hr P hP
  have hwh : U ^ 2 ^ T % (p * q) ≡ P.h ^ R [MOD p * q] := by
    calc U ^ 2 ^ T % (p * q) ≡ U ^ 2 ^ T [MOD p * q] := Nat.mod_modEq _ _
      _ ≡ (P.g ^ R) ^ 2 ^ T [MOD p * q] := hU.pow _
      _ = (P.g ^ 2 ^ T) ^ R := by rw [← pow_mul, ← pow_mul, Nat.mul_comm]
      _ ≡ P.h ^ R [MOD p * q] := (hhm.pow _).symm
  have hU_cop : Nat.gcd U (p * q) = 1 := by
    have h1 : U % (p * q) = P.g ^ R % (p * q) := hU
    have h2 := gcd_mod_left U (p * q)
    rw [← h2, h1, gcd_mod_left]
    exact Nat.Coprime.pow_left _ hgc
  have hw_cop : Nat.gcd (U ^ 2 ^ T % (p * q)) (p * q) = 1 := by
    rw [gcd_mod_left]
    exact Nat.Coprime.pow_left _ hU_cop
  have hx_cop : Nat.gcd ((U ^ 2 ^ T % (p * q)) ^ (p * q) % (p * q) ^ 2)
      ((p * q) ^ 2) = 1 := by
    rw [gcd_mod_left]
    exact Nat.Coprime.pow _ _ hw_cop
  obtain ⟨z, hz⟩ := modinv_isSome _ _ hn2 hx_cop
  obtain ⟨-, hzlt, hzinv⟩ := modinv_spec _ _ _ hz
  have hxz : (U ^ 2 ^ T % (p * q)) ^ (p * q) % (p * q) ^ 2 * z ≡ 1
      [MOD (p * q) ^ 2] := hzinv
  have hxh : (U ^ 2 ^ T % (p * q)) ^ (p * q) % (p * q) ^ 2 ≡
      P.h ^ (R * (p * q)) [MOD (p * q) ^ 2] := by
    calc (U ^ 2 ^ T % (p * q)) ^ (p * q) % (p * q) ^ 2
        ≡ (U ^ 2 ^ T % (p * q)) ^ (p * q) [MOD (p * q) ^ 2] := Nat.mod_modEq _ _
      _ ≡ (P.h ^ R) ^ (p * q) [MOD (p * q) ^ 2] := pow_lift_sq _ _ _ hwh
      _ = P.h ^ (R * (p * q)) := by rw [← pow_mul]
  have hdec : V * z ≡ 1 + S * (p * q) [MOD (p * q) ^ 2] := by
    calc V * z
        ≡ P.h ^ (R * (p * q)) * (1 + p * q) ^ S * z [MOD (p * q) ^ 2] :=
          hV.mul_right _
      _ ≡ (U ^ 2 ^ T % (p * q)) ^ (p * q) % (p * q) ^ 2 * (1 + p * q) ^ S * z
          [MOD (p * q) ^ 2] := ((hxh.symm.mul_right _).mul_right _)
      _ = (U ^ 2 ^ T % (p * q)) ^ (p * q) % (p * q) ^ 2 * z * (1 + p * q) ^ S := by
          ring
      _ ≡ 1 * (1 + p * q) ^ S [MOD (p * q) ^ 2] := hxz.mul_right _
      _ = (1 + p * q) ^ S := one_mul _
      _ ≡ 1 + S * (p * q) [MOD (p * q) ^ 2] := paillier_pow _ _
  have hbound : 1 + S * (p * q) < (p * q) ^ 2 := by
    calc 1 + S * (p * q) < p * q + S * (p * q) := Nat.add_lt_add_right hn1 _
      _ = (S + 1) * (p * q) := by ring
      _ ≤ (p * q) * (p * q) := Nat.mul_le_mul_right _ (by omega)
      _ = (p * q) ^ 2 := (pow_two _).symm
  have hdecval : V * z % (p * q) ^ 2 = 1 + S * (p * q) := by
    have h1 : V * z % (p * q) ^ 2 = (1 + S * (p * q)) % (p * q) ^ 2 := hdec
    rw [h1, Nat.mod_eq_of_lt hbound]
  rw [solve_eq, hn, hd, hz]
  show (if V * z % (p * q) ^ 2 < 1 then
      (Except.error SolveError.underflow : Except SolveError Nat)
    else Except.ok ((V * z % (p * q) ^ 2 - 1) / (p * q))) = Except.ok S
  rw [hdecval, if_neg (by omega)]
  congr 1
  rw [Nat.add_sub_cancel_left, Nat.mul_div_cancel _ hn0]

/-!
The encoding invariant shared by generated puzzles and their products.
-/

/-- Pair (u, v) encodes secret S under parameter set P: for some exponent R,
u = g ^ R mod n and v = h ^ (R n) (1 + n) ^ S mod n ^ 2. -/
def Encodes (P : LHTLP) (pz : Nat × Nat) (S : Nat) : Prop :=
  ∃ R, pz.1 ≡ P.g ^ R [MOD P.n] ∧
    pz.2 ≡ P.h ^ (R * P.n) * (1 + P.n) ^ S [MOD P.n ^ 2]

theorem generate_encodes (P : LHTLP) (r s : Nat) :
    Encodes P (LHTLP.generate P r s) s := by
  refine ⟨r, ?_, ?_⟩
  · show P.g ^ r % P.n ≡ P.g ^ r [MOD P.n]
    exact Nat.mod_modEq _ _
  · show (P.h ^ (r * P.n) % P.n ^ 2) * ((1 + P.n) ^ s % P.n ^ 2) % P.n ^ 2 ≡
      P.h ^ (r * P.n) * (1 + P.n) ^ s [MOD P.n ^ 2]
    exact (Nat.mod_modEq _ _).trans ((Nat.mod_modEq _ _).mul (Nat.mod_modEq _ _))

theorem encodes_one (P : LHTLP) : Encodes P (1, 1) 0 := by
  refine ⟨0, ?_, ?_⟩
  · show (1 : Nat) ≡ P.g ^ 0 [MOD P.n]
    rw [pow_zero]
  · show (1 : Nat) ≡ P.h ^ (0 * P.n) * (1 + P.n) ^ 0 [MOD P.n ^ 2]
    rw [Nat.zero_mul, pow_zero, pow_zero, one_mul]

theorem encodes_mul (P : LHTLP) (a b : Nat × Nat) (S1 S2 : Nat)
    (h1 : Encodes P a S1) (h2 : Encodes P b S2) :
    Encodes P (a.1 * b.1, a.2 * b.2) (S1 + S2) := by
  obtain ⟨R1, hu1, hv1⟩ := h1
  obtain ⟨R2, hu2, hv2⟩ := h2
  refine ⟨R1 + R2, ?_, ?_⟩
  · show a.1 * b.1 ≡ P.g ^ (R1 + R2) [MOD P.n]
    rw [pow_add]
    exact hu1.mul hu2
  · show a.2 * b.2 ≡ P.h ^ ((R1 + R2) * P.n) * (1 + P.n) ^ (S1 + S2) [MOD P.n ^ 2]
    have hsplit : P.h ^ ((R1 + R2) * P.n) * (1 + P.n) ^ (S1 + S2) =
        (P.h ^ (R1 * P.n) * (1 + P.n) ^ S1) * (P.h ^ (R2 * P.n) * (1 + P.n) ^ S2) := by
      rw [add_mul, pow_add, pow_add]
      ring
    rw [hsplit]
    exact hv1.mul hv2

theorem foldl_mul_pair (l : List (Nat × Nat)) (a b : Nat) :
    l.foldl (fun acc x => (acc.1 * x.1, acc.2 * x.2)) (a, b) =
      (a * (l.map Prod.fst).prod, b * (l.map Prod.snd).prod) := by
  induction l generalizing a b with
  | nil => simp
  | cons x xs ih =>
    simp only [List.foldl_cons, List.map_cons, List.prod_cons]
    rw [ih, Prod.mk.injEq]
    exact ⟨by ring, by ring⟩

theorem evaluate_eq_prod (T : LHTLP) (ps : List (Nat × Nat)) :
    LHTLP.evaluate T ps = ((ps.map Prod.fst).prod, (ps.map Prod.snd).prod) := by
  unfold LHTLP.evaluate
  rw [foldl_mul_pair, Prod.mk.injEq]
  exact ⟨one_mul _, one_mul _⟩

theorem evaluate_cons (T : LHTLP) (x : Nat × Nat) (l : List (Nat × Nat)) :
    LHTLP.evaluate T (x :: l) =
      (x.1 * (LHTLP.evaluate T l).1, x.2 * (LHTLP.evaluate T l).2) := by
  rw [evaluate_eq_prod, evaluate_eq_prod]
  simp [List.map_cons, List.prod_cons]

theorem encodes_evaluate (P : LHTLP) (pairs : List (Nat × Nat)) :
    Encodes P (LHTLP.evaluate P (pairs.map fun rs => LHTLP.generate P rs.1 rs.2))
      ((pairs.map Prod.snd).sum) := by
  induction pairs with
  | nil => exact encodes_one P
  | cons x xs ih =>
    rw [List.map_cons, evaluate_cons, List.map_cons, List.sum_cons]
    exact encodes_mul P _ _ _ _ (generate_encodes P x.1 x.2) ih

theorem solve_encodes (p q T r : Nat) (hp : SafePrime p) (hq : SafePrime q)
    (hpq : p ≠ q) (hr : Nat.gcd r (p * q) = 1)
    (P : LHTLP) (hP : LHTLP.setup p q T r = some P)
    (pz : Nat × Nat) (S : Nat) (hS : S < p * q) (he : Encodes P pz S) :
    LHTLP.solve P pz = Except.ok S := by
  obtain ⟨R, hu, hv⟩ := he
  have hn := setup_n p q T r P hP
  rw [hn] at hu hv
  have := solve_core p q T r hp hq hpq hr P hP pz.1 pz.2 R S hS hu hv
  exact this

/-!
Claim theorems.
-/

/-- C1: Round trip — for every parameter set produced by setup from two
distinct safe primes (with the sampling loop exiting on a unit r0) and every
secret s below the modulus, solving the puzzle produced by generate for s
(under any random draw r) returns exactly s. -/
theorem round_trip (p q T r0 r s : Nat) (hp : SafePrime p) (hq : SafePrime q)
    (hpq : p ≠ q) (hr0 : Nat.gcd r0 (p * q) = 1) (hs : s < p * q)
    (P : LHTLP) (hP : LHTLP.setup p q T r0 = some P) :
    LHTLP.solve P (LHTLP.generate P r s) = Except.ok s :=
  solve_encodes p q T r0 hp hq hpq hr0 P hP _ s hs (generate_encodes P r s)

/-- C1 witness: the concrete instance setup(5, 7, 1, 2) = (1, 35, 9, 11)
round-trips the secret 4 generated with randomness 3. -/
theorem round_trip_witness :
    LHTLP.solve ⟨1, 35, 9, 11⟩ (LHTLP.generate ⟨1, 35, 9, 11⟩ 3 4) = Except.ok 4 :=
  round_trip 5 7 1 2 3 4 (by decide) (by decide) (by decide) (by decide)
    (by decide) ⟨1, 35, 9, 11⟩ (by decide)

/-- C2: Homomorphism — for every parameter set produced by setup and every
finite list of (randomness, secret) pairs whose secrets sum below the
modulus, solving the evaluate of the generated puzzles yields the exact
integer sum of the secrets. -/
theorem homomorphic_sum (p q T r0 : Nat) (hp : SafePrime p) (hq : SafePrime q)
    (hpq : p ≠ q) (hr0 : Nat.gcd r0 (p * q) = 1)
    (pairs : List (Nat × Nat)) (hsum : (pairs.map Prod.snd).sum < p * q)
    (P : LHTLP) (hP : LHTLP.setup p q T r0 = some P) :
    LHTLP.solve P
        (LHTLP.evaluate P (pairs.map fun rs => LHTLP.generate P rs.1 rs.2)) =
      Except.ok ((pairs.map Prod.snd).sum) :=
  solve_encodes p q T r0 hp hq hpq hr0 P hP _ _ hsum (encodes_evaluate P pairs)

/-- C2 witness: combining puzzles for the secrets 4 and 6 (randomness 3 and
5) under setup(5, 7, 1, 2) and solving yields 10. -/
theorem homomorphic_sum_witness :
    LHTLP.solve ⟨1, 35, 9, 11⟩
        (LHTLP.evaluate ⟨1, 35, 9, 11⟩
          ([(3, 4), (5, 6)].map fun rs => LHTLP.generate ⟨1, 35, 9, 11⟩ rs.1 rs.2)) =
      Except.ok (([(3, 4), (5, 6)] : List (Nat × Nat)).map Prod.snd).sum :=
  homomorphic_sum 5 7 1 2 (by decide) (by decide) (by decide) (by decide)
    [(3, 4), (5, 6)] (by decide) ⟨1, 35, 9, 11⟩ (by decide)

/-- C3 counterexample: under the parameter set produced by setup(5, 7, 1, 2)
(modulus 35), evaluate on the puzzles (10, 40) and (20, 50) returns the plain
products (200, 2000) and not the componentwise residues
(10 * 20 mod 35, 40 * 50 mod 35 ^ 2); in particular the returned components
are not below 35 and 35 ^ 2 = 1225 respectively is violated for the first. -/
theorem evaluate_not_reduced :
    LHTLP.setup 5 7 1 2 = some ⟨1, 35, 9, 11⟩ ∧
    LHTLP.evaluate ⟨1, 35, 9, 11⟩ [(10, 40), (20, 50)] = (200, 2000) ∧
    (200, 2000) ≠ (10 * 20 % 35, 40 * 50 % 35 ^ 2) ∧
    ¬ (200 < 35) := by decide

/-- C3 (amended): evaluate returns the componentwise plain products of the
input puzzles, with no modular reduction; the components are congruent
modulo n and n ^ 2 to the residues the spec describes, but are not in
general below n and n ^ 2. -/
theorem evaluate_componentwise (T : LHTLP) (ps : List (Nat × Nat)) :
    LHTLP.evaluate T ps = ((ps.map Prod.fst).prod, (ps.map Prod.snd).prod) ∧
    (LHTLP.evaluate T ps).1 % T.n = (ps.map Prod.fst).prod % T.n ∧
    (LHTLP.evaluate T ps).2 % T.n ^ 2 = (ps.map Prod.snd).prod % T.n ^ 2 := by
  refine ⟨evaluate_eq_prod T ps, ?_, ?_⟩ <;> rw [evaluate_eq_prod]

/-- C4: Identity element — evaluate of the empty list is the identity puzzle
(1, 1) (a value, not an error), solving (1, 1) returns 0, and evaluate of a
singleton returns the original puzzle, hence solves to the same secret. -/
theorem evaluate_identity (p q T r0 : Nat) (hp : SafePrime p) (hq : SafePrime q)
    (hpq : p ≠ q) (hr0 : Nat.gcd r0 (p * q) = 1)
    (P : LHTLP) (hP : LHTLP.setup p q T r0 = some P) (pz : Nat × Nat) :
    LHTLP.evaluate P [] = (1, 1) ∧
    LHTLP.solve P (1, 1) = Except.ok 0 ∧
    LHTLP.evaluate P [pz] = pz ∧
    LHTLP.solve P (LHTLP.evaluate P [pz]) = LHTLP.solve P pz := by
  have h25 : 25 ≤ p * q :=
    Nat.mul_le_mul (SafePrime.five_le p hp) (SafePrime.five_le q hq)
  have hid : LHTLP.evaluate P [pz] = pz := by
    rw [evaluate_eq_prod]
    simp
  refine ⟨rfl, ?_, hid, by rw [hid]⟩
  exact solve_encodes p q T r0 hp hq hpq hr0 P hP (1, 1) 0 (by omega) (encodes_one P)

/-- C4 witness: the identity facts at setup(5, 7, 1, 2) and the puzzle
(29, 141). -/
theorem evaluate_identity_witness :
    LHTLP.evaluate ⟨1, 35, 9, 11⟩ [] = (1, 1) ∧
    LHTLP.solve ⟨1, 35, 9, 11⟩ (1, 1) = Except.ok 0 ∧
    LHTLP.evaluate ⟨1, 35, 9, 11⟩ [(29, 141)] = (29, 141) ∧
    LHTLP.solve ⟨1, 35, 9, 11⟩ (LHTLP.evaluate ⟨1, 35, 9, 11⟩ [(29, 141)]) =
      LHTLP.solve ⟨1, 35, 9, 11⟩ (29, 141) :=
  evaluate_identity 5 7 1 2 (by decide) (by decide) (by decide) (by decide)
    ⟨1, 35, 9, 11⟩ (by decide) (29, 141)

theorem modinv_none_iff (a m : Nat) (hm : 1 < m) :
    modinv a m = none ↔ Nat.gcd a m ≠ 1 := by
  constructor
  · intro h hg
    obtain ⟨z, hz⟩ := modinv_isSome a m hm hg
    rw [h] at hz
    cases hz
  · exact modinv_eq_none_iff a m

theorem solve_noInverse_cases (Q : LHTLP) (u v : Nat) :
    LHTLP.solve Q (u, v) = Except.error SolveError.noInverse ↔
      modinv ((u ^ 2 ^ Q.difficulty % Q.n) ^ Q.n % Q.n ^ 2) (Q.n ^ 2) = none := by
  rw [solve_eq]
  cases hmi : modinv ((u ^ 2 ^ Q.difficulty % Q.n) ^ Q.n % Q.n ^ 2) (Q.n ^ 2) with
  | none => simp
  | some z =>
    constructor
    · intro h
      have h1 : (if v * z % Q.n ^ 2 < 1 then
            (Except.error SolveError.underflow : Except SolveError Nat)
          else Except.ok ((v * z % Q.n ^ 2 - 1) / Q.n)) =
          Except.error SolveError.noInverse := h
      by_cases hlt : v * z % Q.n ^ 2 < 1
      · rw [if_pos hlt] at h1
        injection h1 with h2
        cases h2
      · rw [if_neg hlt] at h1
        exact Except.noConfusion h1
    · intro h
      cases h

/-- C5: for a parameter set produced by setup, the modular-inverse step of
solve fails with the inversion error exactly when gcd(u, n) is not 1; for
every puzzle produced by generate under the same parameter set, the first
component is a unit modulo n and the inversion error never occurs. -/
theorem solve_noInverse_iff (p q T r0 : Nat) (hp : SafePrime p) (hq : SafePrime q)
    (hpq : p ≠ q) (hr0 : Nat.gcd r0 (p * q) = 1)
    (P : LHTLP) (hP : LHTLP.setup p q T r0 = some P)
    (u v r s : Nat) (hu : u < P.n) :
    (LHTLP.solve P (u, v) = Except.error SolveError.noInverse ↔
      Nat.gcd u P.n ≠ 1) ∧
    Nat.gcd (LHTLP.generate P r s).1 P.n = 1 ∧
    LHTLP.solve P (LHTLP.generate P r s) ≠ Except.error SolveError.noInverse := by
  have h25 : 25 ≤ p * q :=
    Nat.mul_le_mul (SafePrime.five_le p hp) (SafePrime.five_le q hq)
  have hn := setup_n p q T r0 P hP
  have hd := setup_difficulty p q T r0 P hP
  have hgc := setup_g_coprime p q T r0 P hP
  have hn0 : 0 < p * q := by omega
  have hn2 : 1 < (p * q) ^ 2 := by nlinarith
  have key : ∀ u2 v2 : Nat,
      (LHTLP.solve P (u2, v2) = Except.error SolveError.noInverse ↔
        Nat.gcd u2 P.n ≠ 1) := by
    intro u2 v2
    rw [solve_noInverse_cases, hn, hd]
    rw [modinv_none_iff _ _ hn2]
    have hpos : Nat.gcd ((u2 ^ 2 ^ T % (p * q)) ^ (p * q) % (p * q) ^ 2)
        ((p * q) ^ 2) = 1 ↔ Nat.gcd u2 (p * q) = 1 := by
      rw [gcd_mod_left]
      constructor
      · intro h
        have h1 : Nat.Coprime (u2 ^ 2 ^ T % (p * q)) (p * q) :=
          (Nat.coprime_pow_left_iff hn0 _ _).mp
            ((Nat.coprime_pow_right_iff (by omega) _ _).mp h)
        have h2 : Nat.gcd (u2 ^ 2 ^ T) (p * q) = 1 := by
          rw [← gcd_mod_left]
          exact h1
        exact (Nat.coprime_pow_left_iff (pow_pos (by omega) T) _ _).mp h2
      · intro h
        have h1 : Nat.Coprime (u2 ^ 2 ^ T) (p * q) := Nat.Coprime.pow_left _ h
        have h2 : Nat.gcd (u2 ^ 2 ^ T % (p * q)) (p * q) = 1 := by
          rw [gcd_mod_left]
          exact h1
        exact Nat.Coprime.pow _ _ h2
    exact not_congr hpos
  have hgen1 : Nat.gcd (LHTLP.generate P r s).1 P.n = 1 := by
    show Nat.gcd (P.g ^ r % P.n) P.n = 1
    rw [gcd_mod_left, hn]
    exact Nat.Coprime.pow_left _ hgc
  refine ⟨key u v, hgen1, ?_⟩
  intro hcon
  exact (key (LHTLP.generate P r s).1 (LHTLP.generate P r s).2).mp hcon hgen1

/-- C5 witness: under setup(5, 7, 1, 2) (modulus 35) the corrupted puzzle
(5, 3) has gcd(5, 35) = 5 and solve fails with the inversion error, while
the generated puzzle for randomness 3 and secret 4 has a unit first
component and never produces the inversion error. -/
theorem solve_noInverse_iff_witness :
    (LHTLP.solve ⟨1, 35, 9, 11⟩ (5, 3) = Except.error SolveError.noInverse ↔
      Nat.gcd 5 (LHTLP.n ⟨1, 35, 9, 11⟩) ≠ 1) ∧
    Nat.gcd (LHTLP.generate ⟨1, 35, 9, 11⟩ 3 4).1 (LHTLP.n ⟨1, 35, 9, 11⟩) = 1 ∧
    LHTLP.solve ⟨1, 35, 9, 11⟩ (LHTLP.generate ⟨1, 35, 9, 11⟩ 3 4) ≠
      Except.error SolveError.noInverse :=
  solve_noInverse_iff 5 7 1 2 (by decide) (by decide) (by decide) (by decide)
    ⟨1, 35, 9, 11⟩ (by decide) 5 3 3 4 (by decide)

/-- C6: ParameterSet invariant — for a parameter set produced by setup from
safe primes p and q, the stored forcing element satisfies
h = g ^ (2 ^ difficulty mod ((p - 1) (q - 1) / 2)) mod n: the exponent is
2 ^ difficulty reduced modulo the halved totient before the final
exponentiation. -/
theorem forcing_element_invariant (p q T r0 : Nat) (hp : SafePrime p)
    (hq : SafePrime q) (hpq : p ≠ q) (hr0 : Nat.gcd r0 (p * q) = 1)
    (P : LHTLP) (hP : LHTLP.setup p q T r0 = some P) :
    P.h = P.g ^ (2 ^ T % ((p - 1) * (q - 1) / 2)) % P.n ∧
    P.n = p * q ∧ P.difficulty = T := by
  obtain ⟨g, hg, hPeq⟩ := setup_inv p q T r0 P hP
  subst hPeq
  exact ⟨rfl, rfl, rfl⟩

/-- C6 witness: setup(5, 7, 1, 2) stores h = 9 ^ (2 ^ 1 mod 12) mod 35 = 11. -/
theorem forcing_element_invariant_witness :
    LHTLP.h ⟨1, 35, 9, 11⟩ =
      LHTLP.g ⟨1, 35, 9, 11⟩ ^ (2 ^ 1 % ((5 - 1) * (7 - 1) / 2)) %
        LHTLP.n ⟨1, 35, 9, 11⟩ ∧
    LHTLP.n ⟨1, 35, 9, 11⟩ = 5 * 7 ∧ LHTLP.difficulty ⟨1, 35, 9, 11⟩ = 1 :=
  forcing_element_invariant 5 7 1 2 (by decide) (by decide) (by decide)
    (by decide) ⟨1, 35, 9, 11⟩ (by decide)

/-- C7: Boundary cases — with difficulty 0 the squaring exponent is
2 ^ 0 = 1, so the sequential-squaring step is the identity
(u ^ (2 ^ 0) mod n = u mod n) and the round trip still holds; and under any
parameter set produced by setup, the secret 0 round-trips to 0. -/
theorem boundary_cases (p q r0 r s : Nat) (hp : SafePrime p) (hq : SafePrime q)
    (hpq : p ≠ q) (hr0 : Nat.gcd r0 (p * q) = 1) (hs : s < p * q)
    (P : LHTLP) (hP : LHTLP.setup p q 0 r0 = some P) (u : Nat)
    (p2 q2 T2 r02 r2 : Nat) (hp2 : SafePrime p2) (hq2 : SafePrime q2)
    (hpq2 : p2 ≠ q2) (hr02 : Nat.gcd r02 (p2 * q2) = 1)
    (P2 : LHTLP) (hP2 : LHTLP.setup p2 q2 T2 r02 = some P2) :
    2 ^ P.difficulty = 1 ∧
    u ^ 2 ^ P.difficulty % P.n = u % P.n ∧
    LHTLP.solve P (LHTLP.generate P r s) = Except.ok s ∧
    LHTLP.solve P2 (LHTLP.generate P2 r2 0) = Except.ok 0 := by
  have hd := setup_difficulty p q 0 r0 P hP
  have h25 : 25 ≤ p2 * q2 :=
    Nat.mul_le_mul (SafePrime.five_le p2 hp2) (SafePrime.five_le q2 hq2)
  refine ⟨?_, ?_, ?_, ?_⟩
  · rw [hd, pow_zero]
  · rw [hd, pow_zero, pow_one]
  · exact round_trip p q 0 r0 r s hp hq hpq hr0 hs P hP
  · exact round_trip p2 q2 T2 r02 r2 0 hp2 hq2 hpq2 hr02 (by omega) P2 hP2

/-- C7 witness: setup(5, 7, 0, 2) = (0, 35, 9, 9) solves its own puzzles
with a degenerate squaring step, and setup(5, 7, 1, 2) round-trips the
secret 0. -/
theorem boundary_cases_witness :
    2 ^ LHTLP.difficulty ⟨0, 35, 9, 9⟩ = 1 ∧
    13 ^ 2 ^ LHTLP.difficulty ⟨0, 35, 9, 9⟩ % LHTLP.n ⟨0, 35, 9, 9⟩ =
      13 % LHTLP.n ⟨0, 35, 9, 9⟩ ∧
    LHTLP.solve ⟨0, 35, 9, 9⟩ (LHTLP.generate ⟨0, 35, 9, 9⟩ 3 4) = Except.ok 4 ∧
    LHTLP.solve ⟨1, 35, 9, 11⟩ (LHTLP.generate ⟨1, 35, 9, 11⟩ 3 0) = Except.ok 0 :=
  boundary_cases 5 7 2 3 4 (by decide) (by decide) (by decide) (by decide)
    (by decide) ⟨0, 35, 9, 9⟩ (by decide) 13
    5 7 1 2 3 (by decide) (by decide) (by decide) (by decide)
    ⟨1, 35, 9, 11⟩ (by decide)

/-- C8: evaluate returns the same pair on any permutation of the input
puzzle list, because it is a componentwise product of commutative
multiplications. -/
theorem evaluate_perm (T : LHTLP) (ps ps2 : List (Nat × Nat))
    (hperm : ps.Perm ps2) : LHTLP.evaluate T ps = LHTLP.evaluate T ps2 := by
  rw [evaluate_eq_prod, evaluate_eq_prod,
    (hperm.map Prod.fst).prod_eq, (hperm.map Prod.snd).prod_eq]

/-- C8 witness: swapping two puzzles does not change the evaluate result. -/
theorem evaluate_perm_witness :
    LHTLP.evaluate ⟨1, 35, 9, 11⟩ [(2, 3), (4, 5)] =
      LHTLP.evaluate ⟨1, 35, 9, 11⟩ [(4, 5), (2, 3)] :=
  evaluate_perm ⟨1, 35, 9, 11⟩ [(2, 3), (4, 5)] [(4, 5), (2, 3)] (by decide)

/-- C9: the puzzle (1, 0) has a first component that is a unit modulo n but
makes the decoded value 0, so the unchecked subtraction in solve underflows:
solve fails, and not with the inversion error — the subtraction step is not
total on arbitrary puzzles. -/
theorem solve_underflow (p q T r0 : Nat) (hp : SafePrime p) (hq : SafePrime q)
    (hpq : p ≠ q) (hr0 : Nat.gcd r0 (p * q) = 1)
    (P : LHTLP) (hP : LHTLP.setup p q T r0 = some P) :
    Nat.gcd 1 P.n = 1 ∧
    LHTLP.solve P (1, 0) = Except.error SolveError.underflow ∧
    LHTLP.solve P (1, 0) ≠ Except.error SolveError.noInverse := by
  have h25 : 25 ≤ p * q :=
    Nat.mul_le_mul (SafePrime.five_le p hp) (SafePrime.five_le q hq)
  have hn := setup_n p q T r0 P hP
  have hn2 : 1 < (p * q) ^ 2 := by nlinarith
  have hx : ((1 : Nat) ^ 2 ^ P.difficulty % P.n) ^ P.n % P.n ^ 2 = 1 := by
    rw [hn, one_pow, Nat.mod_eq_of_lt (show (1 : Nat) < p * q by omega), one_pow,
      Nat.mod_eq_of_lt hn2]
  obtain ⟨z, hz⟩ := modinv_isSome 1 (P.n ^ 2) (by rw [hn]; omega)
    (Nat.gcd_one_left _)
  have hsolve : LHTLP.solve P (1, 0) = Except.error SolveError.underflow := by
    rw [solve_eq, hx, hz]
    show (if 0 * z % P.n ^ 2 < 1 then
        (Except.error SolveError.underflow : Except SolveError Nat)
      else Except.ok ((0 * z % P.n ^ 2 - 1) / P.n)) =
      Except.error SolveError.underflow
    rw [if_pos (by simp)]
  refine ⟨Nat.gcd_one_left _, hsolve, ?_⟩
  rw [hsolve]
  intro hcon
  injection hcon with h2
  cases h2

/-- C9 witness: at setup(5, 7, 1, 2) the puzzle (1, 0) triggers the
underflow failure. -/
theorem solve_underflow_witness :
    Nat.gcd 1 (LHTLP.n ⟨1, 35, 9, 11⟩) = 1 ∧
    LHTLP.solve ⟨1, 35, 9, 11⟩ (1, 0) = Except.error SolveError.underflow ∧
    LHTLP.solve ⟨1, 35, 9, 11⟩ (1, 0) ≠ Except.error SolveError.noInverse :=
  solve_underflow 5 7 1 2 (by decide) (by decide) (by decide) (by decide)
    ⟨1, 35, 9, 11⟩ (by decide)

/-- C10: interface bound on secrets — generate takes a u64 secret, so every
accepted secret is below 2 ^ 64; when the security parameter is at least 33,
the two safe primes returned by the generator each exceed 2 ^ 32, the
modulus exceeds 2 ^ 64, and hence every secret accepted by generate is
automatically below the modulus. -/
theorem secret_interface_bound (lambda p q s : Nat) (hl : 33 ≤ lambda)
    (hp : SafePrimeOfBits lambda p) (hq : SafePrimeOfBits lambda q)
    (hs : s < 2 ^ 64) :
    2 ^ 32 < p ∧ 2 ^ 32 < q ∧ 2 ^ 64 < p * q ∧ s < p * q := by
  obtain ⟨hsp, hplo, hphi⟩ := hp
  obtain ⟨hsq, hqlo, hqhi⟩ := hq
  have hle : (2 : Nat) ^ 32 ≤ 2 ^ (lambda - 1) :=
    Nat.pow_le_pow_right (by omega) (by omega)
  have hp32 : 2 ^ 32 < p := by
    have hop : p % 2 = 1 := Nat.odd_iff.mp
      ((SafePrime.prime p hsp).odd_of_ne_two
        (by have := SafePrime.five_le p hsp; omega))
    have h1 : 2 ^ 32 ≤ p := le_trans hle hplo
    omega
  have hq32 : 2 ^ 32 < q := by
    have hoq : q % 2 = 1 := Nat.odd_iff.mp
      ((SafePrime.prime q hsq).odd_of_ne_two
        (by have := SafePrime.five_le q hsq; omega))
    have h1 : 2 ^ 32 ≤ q := le_trans hle hqlo
    omega
  have hpq64 : 2 ^ 64 < p * q := by
    have h1 : (2 : Nat) ^ 64 = 2 ^ 32 * 2 ^ 32 := by norm_num
    calc (2 : Nat) ^ 64 = 2 ^ 32 * 2 ^ 32 := h1
      _ < p * 2 ^ 32 := by
          exact Nat.mul_lt_mul_of_lt_of_le hp32 (le_refl _) (by norm_num)
      _ ≤ p * q := Nat.mul_le_mul_left p hq32.le
  exact ⟨hp32, hq32, hpq64, by omega⟩

/-- C10 witness: with the 33-bit safe prime 4294990247 for both p and q, any
u64 secret (for example 42) is below the modulus, which exceeds 2 ^ 64. -/
theorem secret_interface_bound_witness :
    2 ^ 32 < 4294990247 ∧ 2 ^ 32 < 4294990247 ∧
    2 ^ 64 < 4294990247 * 4294990247 ∧ (42 : Nat) < 4294990247 * 4294990247 :=
  secret_interface_bound 33 4294990247 4294990247 42 (by decide)
    (show SafePrime 4294990247 ∧ 2 ^ (33 - 1) ≤ 4294990247 ∧ 4294990247 < 2 ^ 33
      from ⟨safePrime_4294990247, by decide, by decide⟩)
    (show SafePrime 4294990247 ∧ 2 ^ (33 - 1) ≤ 4294990247 ∧ 4294990247 < 2 ^ 33
      from ⟨safePrime_4294990247, by decide, by decide⟩)
    (by decide)
